import Mathlib

/-!
# Verification of the qr-box-inventory core (src/garage_boxes.py)

Shallow embedding of the item-line parser and the box/item store of
`garage_boxes.py`, together with proofs of the specified properties.

Python strings are modelled as `List Char`.  Python's `str.strip`,
`str.splitlines`, `int(...)` and the regular-expression shorthand match of
`add_box` are modelled character-by-character below; the models restrict the
relevant character classes (whitespace, decimal digits) to their ASCII
portions, which is the only part exercised by this application's data.
-/

/-- Convert a Lean string literal to the `List Char` representation used
throughout this development. -/
def strL (s : String) : List Char := s.data

/-- Whitespace as stripped by Python's `str.strip` and matched by `\s`
(ASCII portion: space, tab, newline, carriage return, vertical tab,
form feed). -/
def isWsC (c : Char) : Bool :=
  c = ' ' || c = '\t' || c = '\n' || c = '\r' || c = '\x0b' || c = '\x0c'

/-- ASCII decimal digit, as matched by `\d` and accepted by `int`. -/
def isDigitC (c : Char) : Bool := '0' ≤ c && c ≤ '9'

/-- Drop whitespace from the right end of a character list. -/
def dropRightWs (cs : List Char) : List Char :=
  ((cs.reverse).dropWhile isWsC).reverse

/-- Python `str.strip()`: drop whitespace from both ends. -/
def strip (cs : List Char) : List Char :=
  dropRightWs (cs.dropWhile isWsC)

/-- Line-boundary characters of Python `str.splitlines` (`\r\n` is treated
as a single boundary by `splitLines` below). -/
def isLineBreak (c : Char) : Bool :=
  c = '\n' || c = '\r' || c = '\x0b' || c = '\x0c' ||
  c = '\x1c' || c = '\x1d' || c = '\x1e' || c = '\x85' ||
  c = ' ' || c = ' '

/-- Worker for `splitLines`: `acc` is the current line, reversed. -/
def splitLinesAux : List Char → List Char → List (List Char)
  | [], acc => if acc.isEmpty then [] else [acc.reverse]
  | '\r' :: '\n' :: rest, acc => acc.reverse :: splitLinesAux rest []
  | c :: rest, acc =>
    if isLineBreak c then acc.reverse :: splitLinesAux rest []
    else splitLinesAux rest (c :: acc)

/-- Python `str.splitlines()`: split at line boundaries, no trailing empty
line for a trailing boundary, `[]` for the empty string. -/
def splitLines (cs : List Char) : List (List Char) := splitLinesAux cs []

/-- Value of a list of decimal digits (most significant first). -/
def digitsVal (ds : List Char) : Nat :=
  ds.foldl (fun a c => a * 10 + (c.toNat - '0'.toNat)) 0

/-- Grammar of the digit part accepted by Python `int`, after the first
digit: digits with single underscores allowed only between digits. -/
def digitsRest : List Char → Bool
  | [] => true
  | '_' :: c :: rest => isDigitC c && digitsRest rest
  | ['_'] => false
  | c :: rest => isDigitC c && digitsRest rest

/-- Digit group accepted by Python `int`: a digit followed by digits with
single interior underscores (`"1_000"` is legal, `"_1"`, `"1_"`, `"1__0"`
are not). -/
def digitGroupOk : List Char → Bool
  | [] => false
  | c :: rest => isDigitC c && digitsRest rest

/-- Model of Python `int(s)` on a string: strip whitespace, optional sign,
then a digit group (ASCII digits; Python additionally accepts non-ASCII
decimal digits, which this application never feeds it).  `none` models
`ValueError`. -/
def parsePyInt (cs : List Char) : Option Int :=
  let s := strip cs
  let (sgn, t) : Int × List Char :=
    match s with
    | '+' :: rest => (1, rest)
    | '-' :: rest => (-1, rest)
    | _ => (1, s)
  if digitGroupOk t then
    some (sgn * (digitsVal (t.filter isDigitC) : Int))
  else
    none

/-- An inventory item: `{"name": ..., "qty": ...}`. -/
structure Item where
  name : List Char
  qty : Int
deriving DecidableEq, Repr

/-- Python `line.rsplit(",", 1)` for a line that contains a comma: the part
before the last comma and the part after it. -/
def rsplitComma (cs : List Char) : List Char × List Char :=
  let r := cs.reverse
  let rt := r.takeWhile (fun c => c != ',')
  ((r.drop (rt.length + 1)).reverse, rt.reverse)

/-- Model of the regex shorthand match in `add_box`:
`re.search(r"(.+?)[x×]\s*(\d+)$", line, flags=re.IGNORECASE)`.
A match exists exactly when the line ends in a maximal nonempty run of
digits, preceded by optional whitespace, preceded by `x`/`X`/`×`, preceded
by a nonempty name part.  The lazy group and end anchor make that
decomposition unique, so the match is computed from the end of the line. -/
def matchShorthand (line : List Char) : Option (List Char × Nat) :=
  let r := line.reverse
  let ds := r.takeWhile isDigitC
  if ds.isEmpty then none
  else
    match (r.drop ds.length).dropWhile isWsC with
    | [] => none
    | c :: pre =>
      if (c = 'x' || c = 'X' || c = '×') && !pre.isEmpty then
        some (pre.reverse, digitsVal ds.reverse)
      else
        none

/-- Name part and quantity extracted from a stripped non-blank line by the
`add_box` loop body: the comma branch, the shorthand branch, or the
whole-line fallback. -/
def nameQty (line : List Char) : List Char × Int :=
  if line.contains ',' then
    (strip (rsplitComma line).1, (parsePyInt (rsplitComma line).2).getD 1)
  else
    match matchShorthand line with
    | some m => (strip m.1, (m.2 : Nat))
    | none => (line, 1)

/-- One iteration of the `add_box` item-parsing loop body: `none` means the
line contributes no item (blank line, or empty name part). -/
def parseLine (raw : List Char) : Option Item :=
  let line := strip raw
  if line.isEmpty then none
  else
    let nq := nameQty line
    if nq.1.isEmpty then none else some ⟨nq.1, nq.2⟩

/-- The `add_box` item-parsing loop: iterate over `items.splitlines()`,
appending each produced item to the accumulator (`parsed_items.append`). -/
def parseItems (text : List Char) : List Item :=
  (splitLines text).foldl
    (fun acc l =>
      match parseLine l with
      | some it => acc ++ [it]
      | none => acc)
    []

/-! ## The box/item store

The JSON document is modelled structurally.  A box record's `items` field is
an `Option`: `none` models a persisted box dict that lacks the `"items"` key
entirely (possible after `/import`, which performs no per-box validation);
the source's `b.setdefault("items", [])` creates the key, read here through
`itemsD`. -/

/-- A box record `{"id": ..., "name": ..., "location": ..., "items": ...}`. -/
structure Box where
  id : List Char
  name : List Char
  location : List Char
  items : Option (List Item)
deriving DecidableEq, Repr

/-- The persisted document `{"boxes": [...]}`. -/
structure Doc where
  boxes : List Box
deriving DecidableEq, Repr

/-- Error outcomes of the store operations, one per `raise HTTPException`
site in the source: `notFound` is `HTTPException(404)`, `invalidIndex` is
`HTTPException(400, "Invalid item index")`, `badConfirm` is
`HTTPException(400, 'Type "DELETE" to confirm')`, `invalidImport` is
`HTTPException(400, "Invalid JSON (expected {'boxes': [...]})")`.
`require_pin` (403) runs before the document is even loaded and is outside
the modelled core. -/
inductive Err where
  | notFound
  | invalidIndex
  | badConfirm
  | invalidImport
deriving DecidableEq, Repr

/-- `find_box`: first box whose `id` equals `bid`, as in
`next((b for b in d["boxes"] if b["id"] == bid), None)`. -/
def find_box (d : Doc) (bid : List Char) : Option Box :=
  d.boxes.find? (fun b => b.id == bid)

/-- The value of `b.setdefault("items", [])`. -/
def itemsD (b : Box) : List Item := b.items.getD []

/-- In-place mutation of the first box whose id is `bid` (the dict object
that `find_box` returned), expressed as replacement in the box list. -/
def replaceFirst (bid : List Char) (nb : Box) : List Box → List Box
  | [] => []
  | b :: bs => if b.id == bid then nb :: bs else b :: replaceFirst bid nb bs

/-- `add_box` (`POST /boxes`): build the new box from the trimmed name and
location and the parsed items text, then `d["boxes"].insert(0, b)`.
`newId` stands for the `uuid.uuid4().hex` value generated by the call. -/
def add_box (newId nm loc itemsText : List Char) (d : Doc) : Doc :=
  ⟨⟨newId, strip nm, strip loc, some (parseItems itemsText)⟩ :: d.boxes⟩

/-- `add_item` (`POST /items`): 404 when the box is absent, else
`b.setdefault("items", []).append({"name": name.strip(), "qty": int(qty)})`
followed by `save_data`. -/
def add_item (bid nm : List Char) (q : Int) (d : Doc) : Except Err Doc :=
  match find_box d bid with
  | none => Except.error Err.notFound
  | some b =>
    Except.ok ⟨replaceFirst bid
      { b with items := some (itemsD b ++ [⟨strip nm, q⟩]) } d.boxes⟩

/-- `update_item` (`POST /items/update`): 404 when the box is absent;
`idx` is an `int` form field and may be negative; out-of-bounds raises
before `save_data`; otherwise
`items[idx] = {"name": name.strip(), "qty": max(1, int(qty))}`. -/
def update_item (bid : List Char) (idx : Int) (nm : List Char) (q : Int)
    (d : Doc) : Except Err Doc :=
  match find_box d bid with
  | none => Except.error Err.notFound
  | some b =>
    if idx < 0 || ((itemsD b).length : Int) ≤ idx then
      Except.error Err.invalidIndex
    else
      Except.ok ⟨replaceFirst bid
        { b with items := some ((itemsD b).set idx.toNat ⟨strip nm, max 1 q⟩) }
        d.boxes⟩

/-- `delete_item` (`POST /items/delete`): same bounds check, then
`items.pop(idx)`. -/
def delete_item (bid : List Char) (idx : Int) (d : Doc) : Except Err Doc :=
  match find_box d bid with
  | none => Except.error Err.notFound
  | some b =>
    if idx < 0 || ((itemsD b).length : Int) ≤ idx then
      Except.error Err.invalidIndex
    else
      Except.ok ⟨replaceFirst bid
        { b with items := some ((itemsD b).eraseIdx idx.toNat) } d.boxes⟩

/-- `update_box` (`POST /boxes/update`). -/
def update_box (bid nm loc : List Char) (d : Doc) : Except Err Doc :=
  match find_box d bid with
  | none => Except.error Err.notFound
  | some b =>
    Except.ok ⟨replaceFirst bid
      { b with name := strip nm, location := strip loc } d.boxes⟩

/-- `delete_box` (`POST /boxes/delete`): `confirm.strip().upper()` must be
`"DELETE"` (checked before the document is read); removes every box with
the given id; 404 when nothing was removed.  `Char.toUpper` matches
Python's `str.upper` on the ASCII data involved. -/
def delete_box (bid confirm : List Char) (d : Doc) : Except Err Doc :=
  if ((strip confirm).map Char.toUpper) ≠ strL "DELETE" then
    Except.error Err.badConfirm
  else
    let bs := d.boxes.filter (fun b => !(b.id == bid))
    if bs.length = d.boxes.length then Except.error Err.notFound
    else Except.ok ⟨bs⟩

/-- The read-modify-write cycle shared by every mutating route:
`load_data` reads the persisted document, the handler validates and mutates
in memory, and `save_data` rewrites the whole document exactly once at the
end — every `raise` in the source occurs before the `save_data` call, so an
error leaves the persisted document untouched. -/
def runOp (op : Doc → Except Err Doc) (persisted : Doc) : Doc × Option Err :=
  match op persisted with
  | Except.ok d2 => (d2, none)
  | Except.error e => (persisted, some e)

deriving instance DecidableEq for Except

/-! ## C8: the import/export round trip

`import_json` parses the uploaded file with `json.loads`, checks
`"boxes" in payload and isinstance(payload["boxes"], list)`, and
`save_data(payload)` rewrites the data file with
`json.dumps(payload, indent=2)`; `export_json` streams the data file's
bytes verbatim.  JSON values are modelled by the inductive `Json` below;
numbers are modelled as integers (the document schema stores only integer
quantities; JSON floats are outside the model).  Python dicts coming from
`json.loads` have unique keys, modelled as association lists. -/

/-- A JSON value as handled by Python's `json` module, numbers restricted
to integers. -/
inductive Json where
  | null : Json
  | bool : Bool → Json
  | num : Int → Json
  | str : List Char → Json
  | arr : List Json → Json
  | obj : List (List Char × Json) → Json
deriving Repr

/-- `n` spaces, the unit of `indent=2` pretty-printing. -/
def nSpaces (n : Nat) : List Char := List.replicate n ' '

/-- Decimal digits of `n`, most significant first (worker with fuel). -/
def natToCharsAux : Nat → Nat → List Char → List Char
  | 0, _, acc => acc
  | f + 1, n, acc =>
    if n < 10 then Char.ofNat (48 + n) :: acc
    else natToCharsAux f (n / 10) (Char.ofNat (48 + n % 10) :: acc)

/-- Decimal representation of a natural number. -/
def natToChars (n : Nat) : List Char := natToCharsAux (n + 1) n []

/-- Decimal representation of an integer, as `json.dumps` prints it. -/
def intToChars (i : Int) : List Char :=
  if i < 0 then '-' :: natToChars i.natAbs else natToChars i.toNat

/-- Lower-case hexadecimal digit, as in `json.dumps`'s `\u00XX` escapes. -/
def hexChar (n : Nat) : Char :=
  if n < 10 then Char.ofNat (48 + n) else Char.ofNat (87 + n)

/-- String-character escaping of `json.dumps`: `"` and `\` are escaped, the
common control characters use their short escapes, the remaining control
characters use `\u00XX`.  (Python's default `ensure_ascii=True` additionally
escapes non-ASCII characters as `\uXXXX`; the escaped and literal forms
decode to the same character, so the parsed value — which is what the
round-trip law compares — is unaffected by emitting them literally.) -/
def escChar (c : Char) : List Char :=
  if c = '"' then ['\\', '"']
  else if c = '\\' then ['\\', '\\']
  else if c = '\n' then ['\\', 'n']
  else if c = '\t' then ['\\', 't']
  else if c = '\r' then ['\\', 'r']
  else if c = '\x08' then ['\\', 'b']
  else if c = '\x0c' then ['\\', 'f']
  else if c.toNat < 32 then
    ['\\', 'u', '0', '0', hexChar (c.toNat / 16), hexChar (c.toNat % 16)]
  else [c]

/-- Escaped body of a JSON string. -/
def escBody (s : List Char) : List Char :=
  s.foldr (fun c acc => escChar c ++ acc) []

/-- A quoted, escaped JSON string. -/
def escStr (s : List Char) : List Char := '"' :: (escBody s ++ ['"'])

mutual
/-- `json.dumps(v, indent=2)` at nesting depth `d`: scalars print inline,
non-empty containers spread one element per line, each line indented by
`2 * (d + 1)` spaces, with the closing bracket on its own line indented by
`2 * d`; the key separator is `": "`, the item separator `",\n"`. -/
def serializeAt : Nat → Json → List Char
  | _, Json.null => strL "null"
  | _, Json.bool true => strL "true"
  | _, Json.bool false => strL "false"
  | _, Json.num i => intToChars i
  | _, Json.str s => escStr s
  | _, Json.arr [] => strL "[]"
  | d, Json.arr (x :: xs) =>
    '[' :: '\n' :: (nSpaces (2 * (d + 1)) ++ serializeAt (d + 1) x
      ++ serializeTail (d + 1) xs ++ '\n' :: (nSpaces (2 * d) ++ [']']))
  | _, Json.obj [] => strL "\x7b\x7d"
  | d, Json.obj (kv :: kvs) =>
    '\x7b' :: '\n' :: (nSpaces (2 * (d + 1)) ++ serializeKV (d + 1) kv
      ++ serializeKVTail (d + 1) kvs ++ '\n' :: (nSpaces (2 * d) ++ ['\x7d']))

/-- One `"key": value` member. -/
def serializeKV : Nat → List Char × Json → List Char
  | d, (k, v) => escStr k ++ ':' :: ' ' :: serializeAt d v

/-- The remaining array elements, each preceded by `",\n" ++ indent`. -/
def serializeTail : Nat → List Json → List Char
  | _, [] => []
  | d, x :: xs =>
    ',' :: '\n' :: (nSpaces (2 * d) ++ serializeAt d x ++ serializeTail d xs)

/-- The remaining object members, each preceded by `",\n" ++ indent`. -/
def serializeKVTail : Nat → List (List Char × Json) → List Char
  | _, [] => []
  | d, kv :: kvs =>
    ',' :: '\n' :: (nSpaces (2 * d) ++ serializeKV d kv ++ serializeKVTail d kvs)
end


/-- `save_data(payload)`'s file content: `json.dumps(payload, indent=2)`. -/
def dumpsDoc (v : Json) : List Char := serializeAt 0 v

/-- JSON inter-token whitespace (space, tab, newline, carriage return). -/
def isJWs (c : Char) : Bool := c = ' ' || c = '\t' || c = '\n' || c = '\r'

/-- Skip inter-token whitespace. -/
def skipWs (cs : List Char) : List Char := cs.dropWhile isJWs

/-- Decode a short escape character. -/
def unescChar (c : Char) : Option Char :=
  if c = '"' then some '"'
  else if c = '\\' then some '\\'
  else if c = '/' then some '/'
  else if c = 'n' then some '\n'
  else if c = 't' then some '\t'
  else if c = 'r' then some '\r'
  else if c = 'b' then some '\x08'
  else if c = 'f' then some '\x0c'
  else none

/-- Value of a hexadecimal digit. -/
def hexVal (c : Char) : Option Nat :=
  if '0' ≤ c && c ≤ '9' then some (c.toNat - 48)
  else if 'a' ≤ c && c ≤ 'f' then some (c.toNat - 87)
  else if 'A' ≤ c && c ≤ 'F' then some (c.toNat - 55)
  else none

/-- Parse a JSON string body after the opening quote, unescaping, up to the
closing quote; `acc` is the decoded prefix, reversed.  Fuel decreases once
per consumed character group, so `length + 1` fuel always suffices. -/
def parseStrBody : Nat → List Char → List Char → Option (List Char × List Char)
  | 0, _, _ => none
  | f + 1, cs, acc =>
    match cs with
    | [] => none
    | c :: rest =>
      if c = '"' then some (acc.reverse, rest)
      else if c = '\\' then
        match rest with
        | [] => none
        | e :: rest2 =>
          if e = 'u' then
            match rest2 with
            | h1 :: h2 :: h3 :: h4 :: rest3 =>
              match hexVal h1, hexVal h2, hexVal h3, hexVal h4 with
              | some a, some b, some c2, some d2 =>
                parseStrBody f rest3
                  (Char.ofNat (((a * 16 + b) * 16 + c2) * 16 + d2) :: acc)
              | _, _, _, _ => none
            | _ => none
          else
            match unescChar e with
            | some c2 => parseStrBody f rest2 (c2 :: acc)
            | none => none
      else parseStrBody f rest (c :: acc)

/-- The maximal run of leading decimal digits. -/
def takeDigits (cs : List Char) : List Char := cs.takeWhile isDigitC

mutual
/-- Recursive-descent JSON value parser (model of `json.loads`'s scanner;
numbers restricted to the integer forms the store emits).  Returns the
value and the unconsumed remainder.  The fuel bounds recursion depth;
`jneed` below computes a sufficient amount. -/
def parseValue : Nat → List Char → Option (Json × List Char)
  | 0, _ => none
  | f + 1, cs =>
    match skipWs cs with
    | [] => none
    | c :: rest =>
      if c = 'n' then
        match rest with
        | 'u' :: 'l' :: 'l' :: r2 => some (Json.null, r2)
        | _ => none
      else if c = 't' then
        match rest with
        | 'r' :: 'u' :: 'e' :: r2 => some (Json.bool true, r2)
        | _ => none
      else if c = 'f' then
        match rest with
        | 'a' :: 'l' :: 's' :: 'e' :: r2 => some (Json.bool false, r2)
        | _ => none
      else if c = '"' then
        match parseStrBody (rest.length + 1) rest [] with
        | some (s, r2) => some (Json.str s, r2)
        | none => none
      else if c = '-' then
        if (takeDigits rest).isEmpty then none
        else some (Json.num (-(digitsVal (takeDigits rest) : Int)),
          rest.drop (takeDigits rest).length)
      else if isDigitC c then
        some (Json.num (digitsVal (takeDigits (c :: rest)) : Int),
          (c :: rest).drop (takeDigits (c :: rest)).length)
      else if c = '[' then
        if (skipWs rest).head? = some ']' then
          some (Json.arr [], (skipWs rest).tail)
        else parseElems f rest []
      else if c = '\x7b' then
        if (skipWs rest).head? = some '\x7d' then
          some (Json.obj [], (skipWs rest).tail)
        else parseMembers f rest []
      else none

/-- Parse the elements of a non-empty array; `acc` holds the elements
parsed so far, reversed. -/
def parseElems : Nat → List Char → List Json → Option (Json × List Char)
  | 0, _, _ => none
  | f + 1, cs, acc =>
    match parseValue f cs with
    | none => none
    | some (v, r) =>
      if (skipWs r).head? = some ',' then
        parseElems f (skipWs r).tail (v :: acc)
      else if (skipWs r).head? = some ']' then
        some (Json.arr (v :: acc).reverse, (skipWs r).tail)
      else none

/-- Parse the members of a non-empty object; `acc` holds the members
parsed so far, reversed. -/
def parseMembers : Nat → List Char → List (List Char × Json) →
    Option (Json × List Char)
  | 0, _, _ => none
  | f + 1, cs, acc =>
    if (skipWs cs).head? = some '"' then
      match parseStrBody ((skipWs cs).tail.length + 1) (skipWs cs).tail [] with
      | some (k, r2) =>
        if (skipWs r2).head? = some ':' then
          match parseValue f (skipWs r2).tail with
          | some (v, r4) =>
            if (skipWs r4).head? = some ',' then
              parseMembers f (skipWs r4).tail ((k, v) :: acc)
            else if (skipWs r4).head? = some '\x7d' then
              some (Json.obj ((k, v) :: acc).reverse, (skipWs r4).tail)
            else none
          | none => none
        else none
      | none => none
    else none
end


/-- Model of `json.loads`: parse one value and require that only
whitespace remains.  `length + 1` fuel is enough for every value the
serializer can produce (`jneed_le_length` below). -/
def loads (cs : List Char) : Option Json :=
  match parseValue (cs.length + 1) cs with
  | some (v, rest) => if (skipWs rest).isEmpty then some v else none
  | none => none

mutual
/-- Fuel needed by `parseValue` on the serialized form of a value. -/
def jneed : Json → Nat
  | Json.arr [] => 1
  | Json.arr (x :: xs) => 1 + jneedElems (x :: xs)
  | Json.obj [] => 1
  | Json.obj (kv :: kvs) => 1 + jneedMembers (kv :: kvs)
  | _ => 1

/-- Fuel needed by `parseElems` on a serialized element list. -/
def jneedElems : List Json → Nat
  | [] => 0
  | x :: xs => 1 + jneed x + jneedElems xs

/-- Fuel needed by `parseMembers` on a serialized member list. -/
def jneedMembers : List (List Char × Json) → Nat
  | [] => 0
  | kv :: kvs => 1 + jneed kv.2 + jneedMembers kvs
end

/-- `true` when the list does not start with a decimal digit, so that a
preceding number token is self-delimiting. -/
def ndStart : List Char → Bool
  | [] => true
  | c :: _ => !isDigitC c

/-- The check `"boxes" in payload and isinstance(payload["boxes"], list)`
read on the model: look the key up among the object's members.  (Dicts
produced by `json.loads` have unique keys, so first-match lookup agrees
with dict lookup; a payload that is not a mapping fails the check — in the
source a non-iterable or string payload raises a `TypeError` before any
write, which is likewise a rejection without a write.) -/
def jsonLookup (key : List Char) : Json → Option Json
  | Json.obj kvs => (kvs.find? (fun kv => kv.1 == key)).map (fun kv => kv.2)
  | _ => none

/-- `import_json` (`POST /import`): the uploaded JSON payload wholly
replaces the current document — `save_data(payload)` rewrites the data file
with `json.dumps(payload, indent=2)` regardless of the previous content.
Returns the new file content on success. -/
def import_json (payload : Json) : Except Err (List Char) :=
  match jsonLookup (strL "boxes") payload with
  | some (Json.arr _) => Except.ok (dumpsDoc payload)
  | _ => Except.error Err.invalidImport

/-- `export_json` (`GET /export`): the data file's bytes verbatim, or the
compact dump `json.dumps(EMPTY)` of the empty document when no file
exists. -/
def export_json (file : Option (List Char)) : List Char :=
  match file with
  | some content => content
  | none => strL "\x7b\"boxes\": []\x7d"

/-! ## Lemmas and claim theorems -/

/-! ## Basic lemmas about `strip`, `dropRightWs` and splitting -/

theorem dropWhile_self (p : Char → Bool) (l : List Char) :
    (l.dropWhile p).dropWhile p = l.dropWhile p := by
  induction l with
  | nil => rfl
  | cons c t ih =>
    by_cases h : p c <;> simp [List.dropWhile_cons, h, ih]

theorem dropWhile_append_cons_neg {p : Char → Bool} {c : Char}
    (h : p c = false) (xs ys : List Char) :
    (xs ++ c :: ys).dropWhile p = xs.dropWhile p ++ c :: ys := by
  rw [List.dropWhile_append]
  split
  · next hemp =>
    rw [List.isEmpty_iff] at hemp
    simp [hemp, List.dropWhile_cons, h]
  · rfl

theorem strip_append_comma (l r : List Char) :
    strip (l ++ ',' :: r) = l.dropWhile isWsC ++ ',' :: dropRightWs r := by
  unfold strip dropRightWs
  rw [dropWhile_append_cons_neg (by decide) l r]
  rw [List.reverse_append, List.reverse_cons, List.append_assoc]
  simp only [List.singleton_append]
  rw [dropWhile_append_cons_neg (by decide)]
  rw [List.reverse_append, List.reverse_cons, List.reverse_reverse]
  simp [List.append_assoc]

theorem rsplitComma_append (X Y : List Char) (h : ',' ∉ Y) :
    rsplitComma (X ++ ',' :: Y) = (X, Y) := by
  dsimp only [rsplitComma]
  rw [List.reverse_append, List.reverse_cons, List.append_assoc,
    List.singleton_append]
  have h1 : ∀ c ∈ Y.reverse, (c != ',') = true := by
    intro c hc
    rw [List.mem_reverse] at hc
    simp only [bne_iff_ne, ne_eq]
    exact fun hcc => h (hcc ▸ hc)
  rw [List.takeWhile_append_of_pos h1]
  rw [List.takeWhile_cons_of_neg (by decide)]
  simp only [List.append_nil, List.reverse_reverse, List.length_reverse]
  have h2 : Y.reverse ++ ',' :: X.reverse = (Y.reverse ++ [',']) ++ X.reverse := by
    simp [List.append_assoc]
  rw [h2]
  have h3 : Y.length + 1 = (Y.reverse ++ [',']).length := by simp
  rw [h3, List.drop_left, List.reverse_reverse]

theorem dropRightWs_eq (cs : List Char) : dropRightWs cs = cs.rdropWhile isWsC := rfl

theorem dropWhile_rdropWhile_comm (p : Char → Bool) (l : List Char) :
    (l.rdropWhile p).dropWhile p = (l.dropWhile p).rdropWhile p := by
  induction l using List.reverseRecOn with
  | nil => rfl
  | append_singleton xs x ih =>
    by_cases hx : p x
    · rw [List.rdropWhile_concat_pos p xs x hx, ih, List.dropWhile_append]
      split
      · next hemp =>
        rw [List.isEmpty_iff] at hemp
        simp [hemp, List.dropWhile_cons, hx]
      · rw [List.rdropWhile_concat_pos p _ x hx]
    · rw [List.rdropWhile_concat_neg p xs x hx, List.dropWhile_append]
      by_cases hemp : (List.dropWhile p xs).isEmpty
      · rw [List.isEmpty_iff] at hemp
        simp [hemp, List.dropWhile_cons, hx, List.rdropWhile_singleton]
      · simp only [hemp, Bool.false_eq_true, if_false]
        rw [List.rdropWhile_concat_neg p _ x hx]

theorem strip_dropRightWs (r : List Char) : strip (dropRightWs r) = strip r := by
  unfold strip
  simp only [dropRightWs_eq]
  rw [dropWhile_rdropWhile_comm, List.rdropWhile_idempotent]

theorem strip_dropWhileWs (l : List Char) : strip (l.dropWhile isWsC) = strip l := by
  unfold strip
  rw [dropWhile_self]

theorem parsePyInt_dropRightWs (r : List Char) :
    parsePyInt (dropRightWs r) = parsePyInt r := by
  unfold parsePyInt
  rw [strip_dropRightWs]

theorem contains_eq_decide_mem (l : List Char) (c : Char) :
    l.contains c = decide (c ∈ l) := List.elem_eq_mem c l

/-! ## C2: the comma branch splits on the last comma -/

/-- C2.  For every input line that, after trimming, is non-blank and contains
a comma, the parser splits on the last comma: the item name is the trimmed
left part and the quantity is the trimmed right part parsed as an integer,
defaulting to 1 when that parse fails (`Option.getD`); in particular
`"Socks, wool, 2"` yields name `"Socks, wool"` and qty 2.  The line is
quantified as `l ++ ',' :: r` with `',' ∉ r`, so the inserted comma is the
last one of the line. -/
theorem parseLine_comma_splits_on_last_comma :
    (∀ l r : List Char, ',' ∉ r → strip l ≠ [] →
      parseLine (l ++ ',' :: r) = some ⟨strip l, (parsePyInt r).getD 1⟩)
    ∧ parseLine (strL "Socks, wool, 2") = some ⟨strL "Socks, wool", 2⟩ := by
  constructor
  · intro l r hr hl
    have hB : ',' ∉ dropRightWs r := by
      rw [dropRightWs_eq]
      exact fun hm => hr ((List.rdropWhile_prefix isWsC r).subset hm)
    simp only [parseLine, strip_append_comma l r]
    have hne : (List.dropWhile isWsC l ++ ',' :: dropRightWs r).isEmpty = false := by
      simp [List.isEmpty_iff]
    rw [hne]
    have hmem : ',' ∈ List.dropWhile isWsC l ++ ',' :: dropRightWs r := by simp
    simp only [nameQty, contains_eq_decide_mem, decide_eq_true hmem, if_true]
    rw [rsplitComma_append _ _ hB]
    simp only [strip_dropWhileWs, parsePyInt_dropRightWs]
    simp [List.isEmpty_iff, hl]
  · decide

/-- C2 witness at a concrete input. -/
theorem parseLine_comma_splits_on_last_comma_witness :
    ',' ∉ strL " 2" ∧ strip (strL "a,b") ≠ [] ∧
    parseLine (strL "a,b" ++ ',' :: strL " 2") =
      some ⟨strip (strL "a,b"), (parsePyInt (strL " 2")).getD 1⟩ :=
  ⟨by decide, by decide,
    parseLine_comma_splits_on_last_comma.1 (strL "a,b") (strL " 2")
      (by decide) (by decide)⟩

/-! ## C3: the trailing-quantity shorthand -/

theorem ws_not_digit {c : Char} (h : isWsC c = true) : isDigitC c = false := by
  simp only [isWsC, Bool.or_eq_true, decide_eq_true_eq] at h
  rcases h with ((((rfl | rfl) | rfl) | rfl) | rfl) | rfl <;> decide

theorem dropWhile_head_false {p : Char → Bool} {l : List Char} {c : Char}
    {cs : List Char} (h : l.dropWhile p = c :: cs) : p c = false := by
  induction l with
  | nil => simp at h
  | cons a t ih =>
    rw [List.dropWhile_cons] at h
    by_cases ha : p a
    · simp only [ha, if_true] at h
      exact ih h
    · simp only [ha, if_false] at h
      cases h
      exact Bool.not_eq_true _ ▸ (by simpa using ha)

theorem strip_cons_head {raw : List Char} {c : Char} {cs : List Char}
    (h : strip raw = c :: cs) : isWsC c = false := by
  unfold strip at h
  rw [dropRightWs_eq] at h
  obtain ⟨t, ht⟩ := List.rdropWhile_prefix isWsC (raw.dropWhile isWsC)
  rw [h] at ht
  exact dropWhile_head_false ht.symm

theorem strip_ne_nil_of_head {c : Char} (l : List Char) (hc : isWsC c = false) :
    strip (c :: l) ≠ [] := by
  unfold strip
  rw [List.dropWhile_cons_of_neg (by simp [hc]), dropRightWs_eq]
  rw [ne_eq, List.rdropWhile_eq_nil_iff]
  intro hall
  have := hall c (by simp)
  rw [hc] at this
  exact Bool.false_ne_true this

/-- The unique decomposition `name ++ sep ++ whitespace ++ digits` is what
the shorthand regex matches. -/
theorem matchShorthand_decomp (pre w ds : List Char) (sep : Char)
    (hpre : pre ≠ []) (hsep : sep = 'x' ∨ sep = 'X' ∨ sep = '×')
    (hw : ∀ c ∈ w, isWsC c) (hds : ds ≠ []) (hdsd : ∀ c ∈ ds, isDigitC c) :
    matchShorthand (pre ++ sep :: (w ++ ds)) = some (pre, digitsVal ds) := by
  have hsepd : isDigitC sep = false := by
    rcases hsep with rfl | rfl | rfl <;> decide
  have hsepw : isWsC sep = false := by
    rcases hsep with rfl | rfl | rfl <;> decide
  have hrev : (pre ++ sep :: (w ++ ds)).reverse
      = ds.reverse ++ (w.reverse ++ sep :: pre.reverse) := by
    simp [List.reverse_append, List.reverse_cons, List.append_assoc]
  have hdall : ∀ c ∈ ds.reverse, isDigitC c := by
    intro c hc
    exact hdsd c (List.mem_reverse.mp hc)
  have htw : (w.reverse ++ sep :: pre.reverse).takeWhile isDigitC = [] := by
    cases hwv : w.reverse with
    | nil => simp [List.takeWhile_cons, hsepd]
    | cons b tb =>
      have hb : b ∈ w := List.mem_reverse.mp (hwv ▸ List.mem_cons_self b tb)
      have hbd : isDigitC b = false := ws_not_digit (hw b hb)
      simp [List.cons_append, List.takeWhile_cons, hbd]
  have htake : (pre ++ sep :: (w ++ ds)).reverse.takeWhile isDigitC
      = ds.reverse := by
    rw [hrev, List.takeWhile_append_of_pos hdall, htw, List.append_nil]
  have hdrop : (pre ++ sep :: (w ++ ds)).reverse.drop ds.reverse.length
      = w.reverse ++ sep :: pre.reverse := by
    rw [hrev, List.drop_left]
  have hdw : (w.reverse ++ sep :: pre.reverse).dropWhile isWsC
      = sep :: pre.reverse := by
    rw [dropWhile_append_cons_neg hsepw]
    have : w.reverse.dropWhile isWsC = [] :=
      List.dropWhile_eq_nil_iff.mpr fun c hc => hw c (List.mem_reverse.mp hc)
    rw [this, List.nil_append]
  have hdne : ds.reverse ≠ [] := by simpa using hds
  simp only [matchShorthand, htake]
  rw [if_neg (by simpa [List.isEmpty_iff] using hdne)]
  rw [hdrop, hdw]
  have hcond : ((sep = 'x' || sep = 'X' || sep = '×') && !pre.reverse.isEmpty)
      = true := by
    have h1 : (sep = 'x' || sep = 'X' || sep = '×') = true := by
      rcases hsep with rfl | rfl | rfl <;> decide
    have h2 : pre.reverse.isEmpty = false := by
      simp [List.isEmpty_iff, hpre]
    simp [h1, h2]
  simp [hcond]

/-- A stripped line whose last character is `x` (hence no trailing digits)
does not match the shorthand. -/
theorem matchShorthand_bare_x (initSeg : List Char) :
    matchShorthand (initSeg ++ ['x']) = none := by
  have : (initSeg ++ ['x']).reverse = 'x' :: initSeg.reverse := by
    simp
  simp only [matchShorthand, this]
  rw [List.takeWhile_cons_of_neg (by decide)]
  simp

/-- C3.  For every trimmed non-blank comma-free line: when the line
decomposes as a nonempty name part, a separator `x`/`X`/`×`, optional
whitespace and a final nonempty digit run, the parser yields the trimmed
name part and the digits as the quantity; and a line whose trimmed form
ends in a bare `x` (so there are no trailing digits) does not match the
shorthand, the whole trimmed line becoming the name with quantity 1. -/
theorem parseLine_shorthand_quantity :
    (∀ raw pre w ds : List Char, ∀ sep : Char,
       strip raw = pre ++ sep :: (w ++ ds) →
       pre ≠ [] →
       (sep = 'x' ∨ sep = 'X' ∨ sep = '×') →
       (∀ c ∈ w, isWsC c) →
       ds ≠ [] →
       (∀ c ∈ ds, isDigitC c) →
       ',' ∉ strip raw →
       parseLine raw = some ⟨strip pre, (digitsVal ds : Int)⟩)
    ∧ (∀ raw initSeg : List Char, strip raw = initSeg ++ ['x'] →
       ',' ∉ strip raw →
       parseLine raw = some ⟨strip raw, 1⟩) := by
  constructor
  · intro raw pre w ds sep hdec hpre hsep hw hds hdsd hnc
    obtain ⟨c, pre2, hpe⟩ := List.exists_cons_of_ne_nil hpre
    have hcw : isWsC c = false := by
      rw [hpe, List.cons_append] at hdec
      exact strip_cons_head hdec
    have hnp : strip pre ≠ [] := by
      rw [hpe]
      exact strip_ne_nil_of_head _ hcw
    rw [hdec] at hnc
    simp only [parseLine, hdec, nameQty]
    rw [show (pre ++ sep :: (w ++ ds)).isEmpty = false from by
      simp [List.isEmpty_iff, hpe]]
    rw [contains_eq_decide_mem, decide_eq_false hnc]
    simp only [Bool.false_eq_true, if_false]
    rw [matchShorthand_decomp pre w ds sep hpre hsep hw hds hdsd]
    simp [List.isEmpty_iff, hnp]
  · intro raw initSeg hdec hnc
    rw [hdec] at hnc
    simp only [parseLine, hdec, nameQty]
    rw [show (initSeg ++ ['x']).isEmpty = false from by simp [List.isEmpty_iff]]
    rw [contains_eq_decide_mem, decide_eq_false hnc]
    simp only [Bool.false_eq_true, if_false]
    rw [matchShorthand_bare_x]
    simp [List.isEmpty_iff]

/-- C3 witness at concrete inputs, one for each clause. -/
theorem parseLine_shorthand_quantity_witness :
    (strip (strL " Stove x 12 ") = strL "Stove " ++ 'x' :: (strL " " ++ strL "12")
      ∧ parseLine (strL " Stove x 12 ") = some ⟨strip (strL "Stove "), (digitsVal (strL "12") : Int)⟩)
    ∧ (strip (strL "bare x") = strL "bare " ++ ['x']
      ∧ parseLine (strL "bare x") = some ⟨strip (strL "bare x"), 1⟩) :=
  ⟨⟨by decide,
    parseLine_shorthand_quantity.1 (strL " Stove x 12 ") (strL "Stove ")
      (strL " ") (strL "12") 'x' (by decide) (by decide) (by decide)
      (by decide) (by decide) (by decide) (by decide)⟩,
   ⟨by decide,
    parseLine_shorthand_quantity.2 (strL "bare x") (strL "bare ")
      (by decide) (by decide)⟩⟩

/-! ## C4: totality, ordering, skipping -/

theorem parseItems_foldl_eq_filterMap (ls : List (List Char)) (acc : List Item) :
    ls.foldl
      (fun acc l =>
        match parseLine l with
        | some it => acc ++ [it]
        | none => acc)
      acc
    = acc ++ ls.filterMap parseLine := by
  induction ls generalizing acc with
  | nil => simp
  | cons l ls ih =>
    rw [List.foldl_cons, List.filterMap_cons]
    cases h : parseLine l with
    | none => simp only [h]; rw [ih]
    | some it => simp only [h]; rw [ih]; simp [List.append_assoc]

/-- C4.  The item-line parser is a total function (no exception is modelled
because none can be raised: the only fallible operation, `int(...)`, is
wrapped in `try/except` and modelled by the total `parsePyInt`); it emits
items in input-line order, formalised as equality with `filterMap` over the
split lines, and the concrete evaluation shows: blank-after-trim lines and
empty-name lines such as `",5"` are skipped even though a quantity parsed,
and a malformed quantity (`"Tent, two"`) degrades to 1. -/
theorem parseItems_total_ordered_skips :
    (∀ text : List Char,
       parseItems text = (splitLines text).filterMap parseLine)
    ∧ parseItems (strL "a\n,5\n   \nSocks, wool, 2\nTent, two") =
        [⟨strL "a", 1⟩, ⟨strL "Socks, wool", 2⟩, ⟨strL "Tent", 1⟩] := by
  constructor
  · intro text
    unfold parseItems
    rw [parseItems_foldl_eq_filterMap]
    rfl
  · decide

/-! ## C1: the qty >= 1 invariant is not enforced by the parser -/

/-- C1 counterexample: the claim says every operation that writes items
coerces a quantity smaller than 1 up to 1 before writing; but `add_box`'s
bulk parsing writes the parsed integer unchanged, so the line `"Tent,0"`
produces a persisted item with quantity 0 < 1. -/
theorem qty_coercion_claim_cex :
    parseItems (strL "Tent,0") = [⟨strL "Tent", 0⟩] ∧ ¬ ((1 : Int) ≤ 0) := by
  decide

theorem find_box_replaceFirst (bs : List Box) (bid : List Char) (b nb : Box)
    (hf : bs.find? (fun x => x.id == bid) = some b) (hid : nb.id = b.id) :
    (replaceFirst bid nb bs).find? (fun x => x.id == bid) = some nb := by
  induction bs with
  | nil => simp [List.find?] at hf
  | cons x xs ih =>
    unfold replaceFirst
    by_cases hx : (x.id == bid) = true
    · rw [if_pos hx]
      simp only [List.find?, hx] at hf
      have hbx : x = b := by injection hf
      have hnbid : (nb.id == bid) = true := by rw [hid, ← hbx]; exact hx
      simp [List.find?, hnbid]
    · rw [if_neg hx]
      have hx2 : (x.id == bid) = false := by simpa using hx
      simp only [List.find?, hx2] at hf ⊢
      exact ih hf

/-! ## C5: add_item appends without validating -/

/-- C5 counterexample: the claim says `addItem` fails with `ValidationError`
when the trimmed item name is empty; in fact `add_item` performs no name
check at all — with box `"b1"` present, a whitespace-only name and qty 0 are
accepted and the item `{"name": "", "qty": 0}` is appended and persisted. -/
theorem addItem_no_validation_cex :
    add_item (strL "b1") (strL "   ") 0 ⟨[⟨strL "b1", strL "B", [], some []⟩]⟩
      = Except.ok ⟨[⟨strL "b1", strL "B", [], some [⟨[], 0⟩]⟩]⟩
    ∧ strip (strL "   ") = [] := by
  decide

/-- C5 amended: for every call to `addItem` whose box id is present, the
item with the trimmed name (whatever it is, even empty) and the given
quantity (uncoerced) is appended to the end of that box's item list and the
document is persisted; for every absent box id the call fails with
`NotFound`.  No `ValidationError` exists in `add_item`. -/
theorem addItem_appends_and_notFound :
    (∀ d : Doc, ∀ bid nm : List Char, ∀ q : Int, find_box d bid = none →
       add_item bid nm q d = Except.error Err.notFound)
    ∧ (∀ d : Doc, ∀ bid nm : List Char, ∀ q : Int, ∀ b : Box,
       find_box d bid = some b →
       add_item bid nm q d = Except.ok ⟨replaceFirst bid
         { b with items := some (itemsD b ++ [⟨strip nm, q⟩]) } d.boxes⟩
       ∧ find_box ⟨replaceFirst bid
           { b with items := some (itemsD b ++ [⟨strip nm, q⟩]) } d.boxes⟩ bid
         = some { b with items := some (itemsD b ++ [⟨strip nm, q⟩]) }) := by
  constructor
  · intro d bid nm q h
    simp [add_item, h]
  · intro d bid nm q b h
    refine ⟨by simp [add_item, h], ?_⟩
    have h2 : d.boxes.find? (fun x => x.id == bid) = some b := h
    simpa [find_box] using
      find_box_replaceFirst d.boxes bid b
        { b with items := some (itemsD b ++ [⟨strip nm, q⟩]) } h2 rfl

/-- C5 witness at a concrete input. -/
theorem addItem_appends_and_notFound_witness :
    find_box ⟨[⟨strL "b1", strL "B", [], some [⟨strL "T", 1⟩]⟩]⟩ (strL "b1")
      = some ⟨strL "b1", strL "B", [], some [⟨strL "T", 1⟩]⟩ ∧
    add_item (strL "b1") (strL " Cup ") 2
        ⟨[⟨strL "b1", strL "B", [], some [⟨strL "T", 1⟩]⟩]⟩
      = Except.ok ⟨replaceFirst (strL "b1")
          { (⟨strL "b1", strL "B", [], some [⟨strL "T", 1⟩]⟩ : Box) with
            items := some (itemsD ⟨strL "b1", strL "B", [], some [⟨strL "T", 1⟩]⟩
              ++ [⟨strip (strL " Cup "), 2⟩]) }
          [⟨strL "b1", strL "B", [], some [⟨strL "T", 1⟩]⟩]⟩ :=
  ⟨by decide,
   (addItem_appends_and_notFound.2 ⟨[⟨strL "b1", strL "B", [], some [⟨strL "T", 1⟩]⟩]⟩
      (strL "b1") (strL " Cup ") 2 ⟨strL "b1", strL "B", [], some [⟨strL "T", 1⟩]⟩
      (by decide)).1⟩

/-! ## C6: createBox does not validate the name -/

/-- C6 counterexample: the claim says `createBox` with a name empty after
trimming fails with `ValidationError` and adds no box; in fact `add_box`
performs no name validation — the box is created with name `""` and
prepended. -/
theorem createBox_empty_name_cex :
    add_box (strL "id1") (strL "   ") [] [] ⟨[]⟩
      = ⟨[⟨strL "id1", [], [], some []⟩]⟩
    ∧ strip (strL "   ") = [] := by
  decide

/-- C6 amended: `createBox` never validates the name; a name that is empty
after trimming is stored as the empty string and the box is still
prepended to the document. -/
theorem createBox_accepts_empty_name :
    ∀ newId nm loc txt : List Char, ∀ d : Doc, strip nm = [] →
      (add_box newId nm loc txt d).boxes
        = ⟨newId, [], strip loc, some (parseItems txt)⟩ :: d.boxes := by
  intro newId nm loc txt d h
  simp [add_box, h]

/-- C6 witness at a concrete input. -/
theorem createBox_accepts_empty_name_witness :
    strip (strL "  ") = [] ∧
    (add_box (strL "id2") (strL "  ") (strL " loc ") (strL "Tent,1") ⟨[]⟩).boxes
      = [⟨strL "id2", [], strip (strL " loc "), some (parseItems (strL "Tent,1"))⟩] :=
  ⟨by decide,
   createBox_accepts_empty_name (strL "id2") (strL "  ") (strL " loc ")
     (strL "Tent,1") ⟨[]⟩ (by decide)⟩

/-! ## C7: out-of-bounds indices fail without touching the persisted document -/

/-- C7.  `update_item` and `delete_item` with an index outside the bounds of
the target box's current item list fail with the index error
(`HTTPException(400, "Invalid item index")`) and the persisted document is
returned unchanged by the read-modify-write cycle; and in general, whenever
any modelled operation fails with any error, `runOp` leaves the persisted
document exactly as it was (the source raises before its single
whole-document `save_data` call). -/
theorem outOfBounds_leaves_document_unchanged :
    (∀ d : Doc, ∀ bid nm : List Char, ∀ idx q : Int, ∀ b : Box,
       find_box d bid = some b →
       (idx < 0 ∨ ((itemsD b).length : Int) ≤ idx) →
       runOp (update_item bid idx nm q) d = (d, some Err.invalidIndex)
       ∧ runOp (delete_item bid idx) d = (d, some Err.invalidIndex))
    ∧ (∀ op : Doc → Except Err Doc, ∀ d : Doc, ∀ e : Err,
       op d = Except.error e → runOp op d = (d, some e)) := by
  constructor
  · intro d bid nm idx q b hf hoob
    have hcond : (decide (idx < 0) || decide (((itemsD b).length : Int) ≤ idx))
        = true := by
      rcases hoob with h | h
      · simp [h]
      · simp [h]
    constructor
    · simp [runOp, update_item, hf, hcond]
    · simp [runOp, delete_item, hf, hcond]
  · intro op d e h
    simp [runOp, h]

/-- C7 witness at a concrete input: a box with two items, index 5. -/
theorem outOfBounds_leaves_document_unchanged_witness :
    find_box ⟨[⟨strL "b1", strL "B", [], some [⟨strL "T", 1⟩, ⟨strL "S", 2⟩]⟩]⟩
        (strL "b1")
      = some ⟨strL "b1", strL "B", [], some [⟨strL "T", 1⟩, ⟨strL "S", 2⟩]⟩ ∧
    runOp (update_item (strL "b1") 5 (strL "x") 1)
        ⟨[⟨strL "b1", strL "B", [], some [⟨strL "T", 1⟩, ⟨strL "S", 2⟩]⟩]⟩
      = (⟨[⟨strL "b1", strL "B", [], some [⟨strL "T", 1⟩, ⟨strL "S", 2⟩]⟩]⟩,
         some Err.invalidIndex) :=
  ⟨by decide,
   (outOfBounds_leaves_document_unchanged.1
      ⟨[⟨strL "b1", strL "B", [], some [⟨strL "T", 1⟩, ⟨strL "S", 2⟩]⟩]⟩
      (strL "b1") (strL "x") 5 1
      ⟨strL "b1", strL "B", [], some [⟨strL "T", 1⟩, ⟨strL "S", 2⟩]⟩
      (by decide) (Or.inr (by decide))).1⟩

/-! ## C9: createBox prepends a fresh-id box, preserving the rest -/

/-- C9.  A successful `createBox` call with an id that is fresh (the
`uuid.uuid4().hex` draw; its freshness, "collision probability negligible",
is the hypothesis here) prepends the new box, so the newest box is first
and every previously stored box keeps its relative order, name, location
and items — the tail of the new box list is exactly the old box list. -/
theorem createBox_prepends_fresh_id :
    ∀ newId nm loc txt : List Char, ∀ d : Doc,
      newId ∉ d.boxes.map Box.id →
      (add_box newId nm loc txt d).boxes
        = ⟨newId, strip nm, strip loc, some (parseItems txt)⟩ :: d.boxes
      ∧ ∀ b ∈ d.boxes, b.id ≠ newId := by
  intro newId nm loc txt d h
  refine ⟨rfl, ?_⟩
  intro b hb heq
  exact h (heq ▸ List.mem_map_of_mem Box.id hb)

/-- C9 witness at a concrete input. -/
theorem createBox_prepends_fresh_id_witness :
    strL "id9" ∉ (Doc.mk [⟨strL "old", strL "O", [], some []⟩]).boxes.map Box.id ∧
    (add_box (strL "id9") (strL "New") [] [] ⟨[⟨strL "old", strL "O", [], some []⟩]⟩).boxes
      = ⟨strL "id9", strip (strL "New"), strip [], some (parseItems [])⟩
        :: [⟨strL "old", strL "O", [], some []⟩] :=
  ⟨by decide,
   (createBox_prepends_fresh_id (strL "id9") (strL "New") [] []
      ⟨[⟨strL "old", strL "O", [], some []⟩]⟩ (by decide)).1⟩

/-! ## C10: boxes whose record lacks the "items" key -/

/-- C10.  For a persisted box record that lacks the `"items"` field
(`items = none`, possible after `/import`): no missing-key error occurs;
`add_item` treats the box as having an empty item list, creates the field
via `setdefault` and appends the new item; `update_item` and `delete_item`
fail with the index error for every index, since every `idx` is out of
bounds for the empty list. -/
theorem missing_items_field_handled :
    ∀ d : Doc, ∀ bid nm : List Char, ∀ q idx : Int, ∀ b : Box,
      find_box d bid = some b → b.items = none →
      add_item bid nm q d = Except.ok ⟨replaceFirst bid
          { b with items := some [⟨strip nm, q⟩] } d.boxes⟩
      ∧ update_item bid idx nm q d = Except.error Err.invalidIndex
      ∧ delete_item bid idx d = Except.error Err.invalidIndex := by
  intro d bid nm q idx b hf hn
  have hit : itemsD b = [] := by simp [itemsD, hn]
  have hcond : (decide (idx < 0) || decide (((itemsD b).length : Int) ≤ idx))
      = true := by
    rw [hit]
    simp only [List.length_nil, Nat.cast_zero, Bool.or_eq_true,
      decide_eq_true_eq]
    omega
  refine ⟨?_, ?_, ?_⟩
  · simp [add_item, hf, hit]
  · simp [update_item, hf, hcond]
  · simp [delete_item, hf, hcond]

/-- C10 witness at a concrete input: a box record with no `"items"` key. -/
theorem missing_items_field_handled_witness :
    find_box ⟨[⟨strL "b1", strL "B", [], none⟩]⟩ (strL "b1")
      = some ⟨strL "b1", strL "B", [], none⟩ ∧
    add_item (strL "b1") (strL "T") 1 ⟨[⟨strL "b1", strL "B", [], none⟩]⟩
      = Except.ok ⟨replaceFirst (strL "b1")
          { (⟨strL "b1", strL "B", [], none⟩ : Box) with
            items := some [⟨strip (strL "T"), 1⟩] }
          [⟨strL "b1", strL "B", [], none⟩]⟩ :=
  ⟨by decide,
   (missing_items_field_handled ⟨[⟨strL "b1", strL "B", [], none⟩]⟩
      (strL "b1") (strL "T") 1 7 ⟨strL "b1", strL "B", [], none⟩
      (by decide) rfl).1⟩

/-! ## C1 amended: only update_item coerces the quantity -/

/-- C1 amended: only `update_item` coerces a caller-supplied quantity below
1 upward (it writes `max(1, int(qty))`, which is at least 1); `add_box`'s
bulk parsing and `add_item` write the supplied quantity unchanged, so
persisted quantities below 1 are possible — `"Tent,0"` parses to qty 0 and
`add_item` appends its `qty` argument as given. -/
theorem qty_coercion_only_updateItem :
    (∀ d : Doc, ∀ bid nm : List Char, ∀ idx q : Int, ∀ b : Box,
       find_box d bid = some b →
       0 ≤ idx → idx < ((itemsD b).length : Int) →
       update_item bid idx nm q d = Except.ok ⟨replaceFirst bid
         { b with items := some ((itemsD b).set idx.toNat ⟨strip nm, max 1 q⟩) }
         d.boxes⟩
       ∧ (1 : Int) ≤ max 1 q)
    ∧ (∀ d : Doc, ∀ bid nm : List Char, ∀ q : Int, ∀ b : Box,
       find_box d bid = some b →
       add_item bid nm q d = Except.ok ⟨replaceFirst bid
         { b with items := some (itemsD b ++ [⟨strip nm, q⟩]) } d.boxes⟩)
    ∧ parseLine (strL "Tent,0") = some ⟨strL "Tent", 0⟩ := by
  refine ⟨?_, ?_, by decide⟩
  · intro d bid nm idx q b hf h0 hlen
    have hcond : (decide (idx < 0) || decide (((itemsD b).length : Int) ≤ idx))
        = false := by
      simp only [Bool.or_eq_false_iff, decide_eq_false_iff_not]
      omega
    exact ⟨by simp [update_item, hf, hcond], le_max_left 1 q⟩
  · intro d bid nm q b hf
    simp [add_item, hf]

/-- C1 amended witness at a concrete input. -/
theorem qty_coercion_only_updateItem_witness :
    find_box ⟨[⟨strL "b1", strL "B", [], some [⟨strL "T", 1⟩]⟩]⟩ (strL "b1")
      = some ⟨strL "b1", strL "B", [], some [⟨strL "T", 1⟩]⟩ ∧
    update_item (strL "b1") 0 (strL "T") (-5)
        ⟨[⟨strL "b1", strL "B", [], some [⟨strL "T", 1⟩]⟩]⟩
      = Except.ok ⟨replaceFirst (strL "b1")
          { (⟨strL "b1", strL "B", [], some [⟨strL "T", 1⟩]⟩ : Box) with
            items := some ((itemsD ⟨strL "b1", strL "B", [], some [⟨strL "T", 1⟩]⟩).set
              (Int.toNat 0) ⟨strip (strL "T"), max 1 (-5)⟩) }
          [⟨strL "b1", strL "B", [], some [⟨strL "T", 1⟩]⟩]⟩ ∧
    (1 : Int) ≤ max 1 (-5) :=
  ⟨by decide,
   (qty_coercion_only_updateItem.1 ⟨[⟨strL "b1", strL "B", [], some [⟨strL "T", 1⟩]⟩]⟩
      (strL "b1") (strL "T") 0 (-5) ⟨strL "b1", strL "B", [], some [⟨strL "T", 1⟩]⟩
      (by decide) (by decide) (by decide)).1,
   (qty_coercion_only_updateItem.1 ⟨[⟨strL "b1", strL "B", [], some [⟨strL "T", 1⟩]⟩]⟩
      (strL "b1") (strL "T") 0 (-5) ⟨strL "b1", strL "B", [], some [⟨strL "T", 1⟩]⟩
      (by decide) (by decide) (by decide)).2⟩

/-! ### Supporting lemmas for the round-trip proof -/

theorem strL_null_eq : strL "null" = 'n' :: 'u' :: 'l' :: 'l' :: [] := rfl

theorem strL_true_eq : strL "true" = 't' :: 'r' :: 'u' :: 'e' :: [] := rfl

theorem strL_false_eq : strL "false" = 'f' :: 'a' :: 'l' :: 's' :: 'e' :: [] := rfl

theorem strL_brackets_eq : strL "[]" = '[' :: ']' :: [] := rfl

theorem strL_braces_eq : strL "\x7b\x7d" = '\x7b' :: '\x7d' :: [] := rfl

theorem nSpaces_all_ws : ∀ c ∈ nSpaces n, isJWs c = true := by
  intro c hc
  rw [nSpaces, List.mem_replicate] at hc
  rw [hc.2]
  decide

theorem skipWs_ws_append {w : List Char} (hw : ∀ c ∈ w, isJWs c = true)
    (cs : List Char) : skipWs (w ++ cs) = skipWs cs := by
  unfold skipWs
  have hnil : w.dropWhile isJWs = [] := List.dropWhile_eq_nil_iff.mpr hw
  rw [List.dropWhile_append, hnil]
  simp

theorem skipWs_cons_not {c : Char} (hc : isJWs c = false) (cs : List Char) :
    skipWs (c :: cs) = c :: cs := by
  unfold skipWs
  rw [List.dropWhile_cons_of_neg (by simp [hc])]

theorem jws_not_digit {c : Char} (h : isJWs c = true) : isDigitC c = false := by
  simp only [isJWs, Bool.or_eq_true, decide_eq_true_eq] at h
  rcases h with ((rfl | rfl) | rfl) | rfl <;> decide

theorem digit_not_jws {c : Char} (h : isDigitC c = true) : isJWs c = false := by
  cases hj : isJWs c
  · rfl
  · rw [jws_not_digit hj] at h
    exact absurd h (by decide)

theorem digit_ne {c e : Char} (h : isDigitC c = true) (he : isDigitC e = false) :
    c ≠ e := by
  intro hce
  rw [hce, he] at h
  exact absurd h (by decide)

theorem takeDigits_append {D rest : List Char}
    (hD : ∀ c ∈ D, isDigitC c = true) (hr : ndStart rest = true) :
    takeDigits (D ++ rest) = D := by
  unfold takeDigits
  rw [List.takeWhile_append_of_pos hD]
  cases rest with
  | nil => simp
  | cons c t =>
    have : isDigitC c = false := by
      simpa [ndStart] using hr
    rw [List.takeWhile_cons_of_neg (by simp [this])]
    simp

theorem digitsVal_append_singleton (xs : List Char) (c : Char) :
    digitsVal (xs ++ [c]) = digitsVal xs * 10 + (c.toNat - 48) := by
  simp [digitsVal, List.foldl_append]

theorem digitChar_isDigit {k : Nat} (h : k < 10) :
    isDigitC (Char.ofNat (48 + k)) = true := by
  interval_cases k <;> decide

theorem digitChar_val {k : Nat} (h : k < 10) :
    (Char.ofNat (48 + k)).toNat - 48 = k := by
  interval_cases k <;> decide

theorem natToCharsAux_append (f : Nat) : ∀ (n : Nat) (acc : List Char),
    natToCharsAux f n acc = natToCharsAux f n [] ++ acc := by
  induction f with
  | zero => intro n acc; simp [natToCharsAux]
  | succ f ih =>
    intro n acc
    by_cases h : n < 10
    · simp [natToCharsAux, h]
    · simp only [natToCharsAux, h, if_false]
      rw [ih (n / 10) (Char.ofNat (48 + n % 10) :: acc),
        ih (n / 10) [Char.ofNat (48 + n % 10)]]
      simp

theorem natToCharsAux_ok (f : Nat) : ∀ n : Nat, n < f →
    natToCharsAux f n [] ≠ []
    ∧ (∀ c ∈ natToCharsAux f n [], isDigitC c = true)
    ∧ digitsVal (natToCharsAux f n []) = n := by
  induction f with
  | zero => intro n hn; omega
  | succ f ih =>
    intro n hn
    by_cases h : n < 10
    · refine ⟨by simp [natToCharsAux, h], ?_, ?_⟩
      · intro c hc
        simp only [natToCharsAux, h, if_true, List.mem_singleton] at hc
        rw [hc]
        exact digitChar_isDigit h
      · simp only [natToCharsAux, h, if_true]
        have : digitsVal [Char.ofNat (48 + n)] = (Char.ofNat (48 + n)).toNat - 48 := by
          simp [digitsVal]
        rw [this, digitChar_val h]
    · have hd : n / 10 < f := by
        have h1 : n / 10 < n := Nat.div_lt_self (by omega) (by omega)
        omega
      obtain ⟨ihne, ihall, ihval⟩ := ih (n / 10) hd
      have heq : natToCharsAux (f + 1) n []
          = natToCharsAux f (n / 10) [] ++ [Char.ofNat (48 + n % 10)] := by
        simp only [natToCharsAux, h, if_false]
        exact natToCharsAux_append f (n / 10) [Char.ofNat (48 + n % 10)]
      refine ⟨by simp [heq], ?_, ?_⟩
      · intro c hc
        rw [heq, List.mem_append] at hc
        rcases hc with hc | hc
        · exact ihall c hc
        · rw [List.mem_singleton] at hc
          rw [hc]
          exact digitChar_isDigit (by omega)
      · rw [heq, digitsVal_append_singleton, ihval,
          digitChar_val (by omega : n % 10 < 10)]
        omega

theorem natToChars_ok (n : Nat) :
    natToChars n ≠ []
    ∧ (∀ c ∈ natToChars n, isDigitC c = true)
    ∧ digitsVal (natToChars n) = n :=
  natToCharsAux_ok (n + 1) n (Nat.lt_succ_self n)

theorem escBody_nil : escBody [] = [] := rfl

theorem escBody_cons (c : Char) (s : List Char) :
    escBody (c :: s) = escChar c ++ escBody s := rfl

theorem escChar_len_pos (c : Char) : 1 ≤ (escChar c).length := by
  unfold escChar
  split_ifs <;> simp

theorem escBody_len_ge (s : List Char) : s.length ≤ (escBody s).length := by
  induction s with
  | nil => simp [escBody_nil]
  | cons c s ih =>
    rw [escBody_cons, List.length_append, List.length_cons]
    have := escChar_len_pos c
    omega

theorem hexVal_hexChar {k : Nat} (h : k < 16) : hexVal (hexChar k) = some k := by
  interval_cases k <;> decide

theorem parseStrBody_quote (f : Nat) (rest acc : List Char) :
    parseStrBody (f + 1) ('"' :: rest) acc = some (acc.reverse, rest) := by
  simp [parseStrBody]

theorem parseStrBody_esc (f : Nat) (e c2 : Char) (rest acc : List Char)
    (he : e ≠ 'u') (hu : unescChar e = some c2) :
    parseStrBody (f + 1) ('\\' :: e :: rest) acc
      = parseStrBody f rest (c2 :: acc) := by
  simp only [parseStrBody, if_true]
  rw [if_neg he, hu, if_neg (show ¬ ('\\' : Char) = '"' by decide)]

theorem parseStrBody_hex (f : Nat) (h1 h2 h3 h4 : Char) (rest acc : List Char)
    (a b c2 d2 : Nat) (e1 : hexVal h1 = some a) (e2 : hexVal h2 = some b)
    (e3 : hexVal h3 = some c2) (e4 : hexVal h4 = some d2) :
    parseStrBody (f + 1) ('\\' :: 'u' :: h1 :: h2 :: h3 :: h4 :: rest) acc
      = parseStrBody f rest
          (Char.ofNat (((a * 16 + b) * 16 + c2) * 16 + d2) :: acc) := by
  simp only [parseStrBody, if_true]
  rw [e1, e2, e3, e4, if_neg (show ¬ ('\\' : Char) = '"' by decide)]

theorem parseStrBody_plain (f : Nat) (c : Char) (rest acc : List Char)
    (h1 : ¬ c = '"') (h2 : ¬ c = '\\') :
    parseStrBody (f + 1) (c :: rest) acc = parseStrBody f rest (c :: acc) := by
  simp only [parseStrBody]
  rw [if_neg h1, if_neg h2]

theorem parseStrBody_round (s : List Char) : ∀ (acc rest : List Char) (fuel : Nat),
    s.length + 1 ≤ fuel →
    parseStrBody fuel (escBody s ++ '"' :: rest) acc
      = some (acc.reverse ++ s, rest) := by
  induction s with
  | nil =>
    intro acc rest fuel hf
    obtain ⟨f, rfl⟩ : ∃ f, fuel = f + 1 := ⟨fuel - 1, by omega⟩
    rw [escBody_nil, List.nil_append, parseStrBody_quote]
    simp
  | cons c s ih =>
    intro acc rest fuel hf
    obtain ⟨f, rfl⟩ : ∃ f, fuel = f + 1 := ⟨fuel - 1, by omega⟩
    have hf2 : s.length + 1 ≤ f := by
      rw [List.length_cons] at hf
      omega
    rw [escBody_cons, List.append_assoc]
    by_cases h1 : c = '"'
    · subst h1
      rw [show escChar '"' = ['\\', '"'] from rfl]
      rw [show (['\\', '"'] : List Char) ++ (escBody s ++ '"' :: rest)
          = '\\' :: '"' :: (escBody s ++ '"' :: rest) from rfl]
      rw [parseStrBody_esc f '"' '"' _ _ (by decide) (by decide), ih _ _ f hf2]
      simp
    · by_cases h2 : c = '\\'
      · subst h2
        rw [show escChar '\\' = ['\\', '\\'] from rfl]
        rw [show (['\\', '\\'] : List Char) ++ (escBody s ++ '"' :: rest)
            = '\\' :: '\\' :: (escBody s ++ '"' :: rest) from rfl]
        rw [parseStrBody_esc f '\\' '\\' _ _ (by decide) (by decide), ih _ _ f hf2]
        simp
      · by_cases h3 : c = '\n'
        · subst h3
          rw [show escChar '\n' = ['\\', 'n'] from rfl]
          rw [show (['\\', 'n'] : List Char) ++ (escBody s ++ '"' :: rest)
              = '\\' :: 'n' :: (escBody s ++ '"' :: rest) from rfl]
          rw [parseStrBody_esc f 'n' '\n' _ _ (by decide) (by decide), ih _ _ f hf2]
          simp
        · by_cases h4 : c = '\t'
          · subst h4
            rw [show escChar '\t' = ['\\', 't'] from rfl]
            rw [show (['\\', 't'] : List Char) ++ (escBody s ++ '"' :: rest)
                = '\\' :: 't' :: (escBody s ++ '"' :: rest) from rfl]
            rw [parseStrBody_esc f 't' '\t' _ _ (by decide) (by decide),
              ih _ _ f hf2]
            simp
          · by_cases h5 : c = '\r'
            · subst h5
              rw [show escChar '\r' = ['\\', 'r'] from rfl]
              rw [show (['\\', 'r'] : List Char) ++ (escBody s ++ '"' :: rest)
                  = '\\' :: 'r' :: (escBody s ++ '"' :: rest) from rfl]
              rw [parseStrBody_esc f 'r' '\r' _ _ (by decide) (by decide),
                ih _ _ f hf2]
              simp
            · by_cases h6 : c = '\x08'
              · subst h6
                rw [show escChar '\x08' = ['\\', 'b'] from rfl]
                rw [show (['\\', 'b'] : List Char) ++ (escBody s ++ '"' :: rest)
                    = '\\' :: 'b' :: (escBody s ++ '"' :: rest) from rfl]
                rw [parseStrBody_esc f 'b' '\x08' _ _ (by decide) (by decide),
                  ih _ _ f hf2]
                simp
              · by_cases h7 : c = '\x0c'
                · subst h7
                  rw [show escChar '\x0c' = ['\\', 'f'] from rfl]
                  rw [show (['\\', 'f'] : List Char) ++ (escBody s ++ '"' :: rest)
                      = '\\' :: 'f' :: (escBody s ++ '"' :: rest) from rfl]
                  rw [parseStrBody_esc f 'f' '\x0c' _ _ (by decide) (by decide),
                    ih _ _ f hf2]
                  simp
                · by_cases h8 : c.toNat < 32
                  · have hesc : escChar c
                        = ['\\', 'u', '0', '0', hexChar (c.toNat / 16),
                           hexChar (c.toNat % 16)] := by
                      unfold escChar
                      rw [if_neg h1, if_neg h2, if_neg h3, if_neg h4, if_neg h5,
                        if_neg h6, if_neg h7, if_pos h8]
                    rw [hesc]
                    rw [show (['\\', 'u', '0', '0', hexChar (c.toNat / 16),
                          hexChar (c.toNat % 16)] : List Char)
                          ++ (escBody s ++ '"' :: rest)
                        = '\\' :: 'u' :: '0' :: '0' :: hexChar (c.toNat / 16)
                          :: hexChar (c.toNat % 16)
                          :: (escBody s ++ '"' :: rest) from rfl]
                    rw [parseStrBody_hex f '0' '0' (hexChar (c.toNat / 16))
                      (hexChar (c.toNat % 16)) _ _ 0 0 (c.toNat / 16)
                      (c.toNat % 16) (by decide) (by decide)
                      (hexVal_hexChar (by omega)) (hexVal_hexChar (by omega))]
                    have hcn : ((0 * 16 + 0) * 16 + c.toNat / 16) * 16
                        + c.toNat % 16 = c.toNat := by omega
                    rw [hcn, Char.ofNat_toNat, ih _ _ f hf2]
                    simp
                  · have hesc : escChar c = [c] := by
                      unfold escChar
                      rw [if_neg h1, if_neg h2, if_neg h3, if_neg h4, if_neg h5,
                        if_neg h6, if_neg h7, if_neg h8]
                    rw [hesc, List.singleton_append,
                      parseStrBody_plain f c _ _ h1 h2, ih _ _ f hf2]
                    simp

theorem jneed_pos (v : Json) : 1 ≤ jneed v := by
  cases v with
  | arr xs => cases xs <;> simp [jneed]
  | obj kvs => cases kvs <;> simp [jneed]
  | null => simp [jneed]
  | bool b => simp [jneed]
  | num i => simp [jneed]
  | str s => simp [jneed]

theorem serializeAt_head (d : Nat) (v : Json) :
    ∃ c t, serializeAt d v = c :: t ∧ isJWs c = false
      ∧ c ≠ ']' ∧ c ≠ '\x7d' := by
  cases v with
  | null =>
    refine ⟨'n', ['u', 'l', 'l'], ?_, by decide, by decide, by decide⟩
    simp [serializeAt, strL_null_eq]
  | bool b =>
    cases b
    · refine ⟨'f', ['a', 'l', 's', 'e'], ?_, by decide, by decide, by decide⟩
      simp [serializeAt, strL_false_eq]
    · refine ⟨'t', ['r', 'u', 'e'], ?_, by decide, by decide, by decide⟩
      simp [serializeAt, strL_true_eq]
  | num i =>
    by_cases hi : i < 0
    · refine ⟨'-', natToChars i.natAbs, ?_, by decide, by decide, by decide⟩
      simp [serializeAt, intToChars, hi]
    · obtain ⟨hne, hall, _⟩ := natToChars_ok i.toNat
      obtain ⟨c0, D, hD⟩ := List.exists_cons_of_ne_nil hne
      have hd0 : isDigitC c0 = true := hall c0 (by rw [hD]; simp)
      refine ⟨c0, D, ?_, digit_not_jws hd0, digit_ne hd0 (by decide),
        digit_ne hd0 (by decide)⟩
      rw [← hD]
      simp [serializeAt, intToChars, hi]
  | str s =>
    refine ⟨'"', escBody s ++ ['"'], ?_, by decide, by decide, by decide⟩
    simp [serializeAt, escStr]
  | arr xs =>
    cases xs with
    | nil =>
      refine ⟨'[', [']'], ?_, by decide, by decide, by decide⟩
      simp [serializeAt, strL_brackets_eq]
    | cons x xs =>
      refine ⟨'[', '\n' :: (nSpaces (2 * (d + 1)) ++ (serializeAt (d + 1) x
        ++ (serializeTail (d + 1) xs ++ '\n' :: (nSpaces (2 * d) ++ [']'])))),
        ?_, by decide, by decide, by decide⟩
      simp [serializeAt]
  | obj kvs =>
    cases kvs with
    | nil =>
      refine ⟨'\x7b', ['\x7d'], ?_, by decide, by decide, by decide⟩
      simp [serializeAt, strL_braces_eq]
    | cons kv kvs =>
      refine ⟨'\x7b', '\n' :: (nSpaces (2 * (d + 1)) ++ (serializeKV (d + 1) kv
        ++ (serializeKVTail (d + 1) kvs ++ '\n' :: (nSpaces (2 * d) ++ ['\x7d'])))),
        ?_, by decide, by decide, by decide⟩
      simp [serializeAt]

theorem round_main : ∀ fuel : Nat,
    (∀ v : Json, ∀ d : Nat, ∀ w rest : List Char,
      (∀ c ∈ w, isJWs c = true) → ndStart rest = true → jneed v ≤ fuel →
      parseValue fuel (w ++ (serializeAt d v ++ rest)) = some (v, rest))
    ∧ (∀ x : Json, ∀ xs : List Json, ∀ acc : List Json, ∀ d m : Nat,
      ∀ w rest : List Char,
      (∀ c ∈ w, isJWs c = true) → jneedElems (x :: xs) ≤ fuel →
      parseElems fuel (w ++ (serializeAt d x ++ (serializeTail d xs
        ++ '\n' :: (nSpaces m ++ ']' :: rest)))) acc
        = some (Json.arr (acc.reverse ++ x :: xs), rest))
    ∧ (∀ k : List Char, ∀ v : Json, ∀ kvs : List (List Char × Json),
      ∀ acc : List (List Char × Json), ∀ d m : Nat, ∀ w rest : List Char,
      (∀ c ∈ w, isJWs c = true) → jneedMembers ((k, v) :: kvs) ≤ fuel →
      parseMembers fuel (w ++ (serializeKV d (k, v) ++ (serializeKVTail d kvs
        ++ '\n' :: (nSpaces m ++ '\x7d' :: rest)))) acc
        = some (Json.obj (acc.reverse ++ (k, v) :: kvs), rest)) := by
  intro fuel
  induction fuel with
  | zero =>
    refine ⟨?_, ?_, ?_⟩
    · intro v d w rest _ _ hje
      exact absurd hje (by have := jneed_pos v; omega)
    · intro x xs acc d m w rest _ hje
      simp only [jneedElems] at hje
      omega
    · intro k v kvs acc d m w rest _ hje
      simp only [jneedMembers] at hje
      omega
  | succ f ih =>
    obtain ⟨ihP, ihQ, ihR⟩ := ih
    refine ⟨?_, ?_, ?_⟩
    · intro v d w rest hw hnd hje
      cases v with
      | null =>
        rw [show serializeAt d Json.null = 'n' :: ('u' :: 'l' :: 'l' :: [])
          from by simp [serializeAt, strL_null_eq]]
        rw [show ('n' :: ('u' :: 'l' :: 'l' :: [])) ++ rest
          = 'n' :: ('u' :: 'l' :: 'l' :: rest) from by simp]
        simp only [parseValue]
        rw [skipWs_ws_append hw, skipWs_cons_not (by decide)]
        simp
      | bool b =>
        cases b
        · rw [show serializeAt d (Json.bool false)
            = 'f' :: ('a' :: 'l' :: 's' :: 'e' :: []) from by
              simp [serializeAt, strL_false_eq]]
          rw [show ('f' :: ('a' :: 'l' :: 's' :: 'e' :: [])) ++ rest
            = 'f' :: ('a' :: 'l' :: 's' :: 'e' :: rest) from by simp]
          simp only [parseValue]
          rw [skipWs_ws_append hw, skipWs_cons_not (by decide)]
          simp
        · rw [show serializeAt d (Json.bool true)
            = 't' :: ('r' :: 'u' :: 'e' :: []) from by
              simp [serializeAt, strL_true_eq]]
          rw [show ('t' :: ('r' :: 'u' :: 'e' :: [])) ++ rest
            = 't' :: ('r' :: 'u' :: 'e' :: rest) from by simp]
          simp only [parseValue]
          rw [skipWs_ws_append hw, skipWs_cons_not (by decide)]
          simp
      | num i =>
        by_cases hi : i < 0
        · obtain ⟨hne, hall, hval⟩ := natToChars_ok i.natAbs
          rw [show serializeAt d (Json.num i) = '-' :: natToChars i.natAbs
            from by simp [serializeAt, intToChars, hi]]
          rw [show ('-' :: natToChars i.natAbs) ++ rest
            = '-' :: (natToChars i.natAbs ++ rest) from by simp]
          simp only [parseValue]
          rw [skipWs_ws_append hw, skipWs_cons_not (by decide)]
          have htd : takeDigits (natToChars i.natAbs ++ rest)
              = natToChars i.natAbs := takeDigits_append hall hnd
          have hdrop : (natToChars i.natAbs ++ rest).drop
              (natToChars i.natAbs).length = rest := List.drop_left _ _
          have hiv : -((i.natAbs : Nat) : Int) = i := by omega
          simp only [htd, hval, hdrop, hiv, List.isEmpty_iff, hne,
            if_false, ite_false]
          simp [List.isEmpty_iff, hne, hiv]
        · obtain ⟨hne, hall, hval⟩ := natToChars_ok i.toNat
          obtain ⟨c0, D, hD⟩ := List.exists_cons_of_ne_nil hne
          rw [hD] at hall hval
          have hd0 : isDigitC c0 = true := hall c0 (by simp)
          rw [show serializeAt d (Json.num i) = c0 :: D
            from by simp [serializeAt, intToChars, hi, hD]]
          rw [show (c0 :: D) ++ rest = c0 :: (D ++ rest) from by simp]
          simp only [parseValue]
          rw [skipWs_ws_append hw, skipWs_cons_not (digit_not_jws hd0)]
          have htd : takeDigits (c0 :: (D ++ rest)) = c0 :: D := by
            rw [show c0 :: (D ++ rest) = (c0 :: D) ++ rest from by simp]
            exact takeDigits_append hall hnd
          have hdrop : (c0 :: (D ++ rest)).drop (c0 :: D).length = rest := by
            rw [show c0 :: (D ++ rest) = (c0 :: D) ++ rest from by simp]
            exact List.drop_left _ _
          have hn1 : ¬ c0 = 'n' := digit_ne hd0 (by decide)
          have hn2 : ¬ c0 = 't' := digit_ne hd0 (by decide)
          have hn3 : ¬ c0 = 'f' := digit_ne hd0 (by decide)
          have hn4 : ¬ c0 = '"' := digit_ne hd0 (by decide)
          have hn5 : ¬ c0 = '-' := digit_ne hd0 (by decide)
          simp [hn1, hn2, hn3, hn4, hn5, hd0, htd, hval, hdrop,
            Int.toNat_of_nonneg (by omega : (0 : Int) ≤ i)]
      | str s =>
        rw [show serializeAt d (Json.str s) = '"' :: (escBody s ++ ['"'])
          from by simp [serializeAt, escStr]]
        rw [show ('"' :: (escBody s ++ ['"'])) ++ rest
          = '"' :: (escBody s ++ '"' :: rest) from by simp]
        simp only [parseValue]
        rw [skipWs_ws_append hw, skipWs_cons_not (by decide)]
        have hlen : s.length + 1 ≤ (escBody s ++ '"' :: rest).length + 1 := by
          have := escBody_len_ge s
          rw [List.length_append]
          omega
        have hps := parseStrBody_round s [] rest
          ((escBody s ++ '"' :: rest).length + 1) hlen
        rw [List.reverse_nil, List.nil_append, List.length_append,
          List.length_cons] at hps
        simp [hps]
      | arr xs =>
        cases xs with
        | nil =>
          rw [show serializeAt d (Json.arr []) = '[' :: (']' :: []) from by
            simp [serializeAt, strL_brackets_eq]]
          rw [show ('[' :: (']' :: [])) ++ rest = '[' :: (']' :: rest)
            from by simp]
          simp only [parseValue]
          rw [skipWs_ws_append hw, skipWs_cons_not (by decide)]
          simp [skipWs_cons_not (show isJWs ']' = false by decide),
            show isDigitC '[' = false from by decide]
        | cons x xs2 =>
          have hw2 : ∀ c ∈ '\n' :: nSpaces (2 * (d + 1)), isJWs c = true := by
            intro c hc
            rcases List.mem_cons.mp hc with rfl | hc2
            · decide
            · exact nSpaces_all_ws c hc2
          have hje2 : jneedElems (x :: xs2) ≤ f := by
            simp only [jneed] at hje
            omega
          obtain ⟨c1, t1, hct, hcw, hcne, hcne2⟩ := serializeAt_head (d + 1) x
          rw [show serializeAt d (Json.arr (x :: xs2)) = '[' :: ('\n' ::
            (nSpaces (2 * (d + 1)) ++ (serializeAt (d + 1) x
              ++ (serializeTail (d + 1) xs2
                ++ '\n' :: (nSpaces (2 * d) ++ [']'])))))
            from by simp [serializeAt]]
          rw [show ('[' :: ('\n' :: (nSpaces (2 * (d + 1))
              ++ (serializeAt (d + 1) x ++ (serializeTail (d + 1) xs2
                ++ '\n' :: (nSpaces (2 * d) ++ [']'])))))) ++ rest
            = '[' :: ('\n' :: (nSpaces (2 * (d + 1))
              ++ (serializeAt (d + 1) x ++ (serializeTail (d + 1) xs2
                ++ '\n' :: (nSpaces (2 * d) ++ ']' :: rest)))))
            from by simp]
          simp only [parseValue]
          rw [skipWs_ws_append hw, skipWs_cons_not (by decide)]
          have hsk2 : skipWs ('\n' :: (nSpaces (2 * (d + 1))
              ++ (serializeAt (d + 1) x ++ (serializeTail (d + 1) xs2
                ++ '\n' :: (nSpaces (2 * d) ++ ']' :: rest)))))
              = c1 :: (t1 ++ (serializeTail (d + 1) xs2
                ++ '\n' :: (nSpaces (2 * d) ++ ']' :: rest))) := by
            rw [show ('\n' :: (nSpaces (2 * (d + 1))
                ++ (serializeAt (d + 1) x ++ (serializeTail (d + 1) xs2
                  ++ '\n' :: (nSpaces (2 * d) ++ ']' :: rest)))))
              = ('\n' :: nSpaces (2 * (d + 1)))
                ++ (serializeAt (d + 1) x ++ (serializeTail (d + 1) xs2
                  ++ '\n' :: (nSpaces (2 * d) ++ ']' :: rest))) from rfl]
            rw [skipWs_ws_append hw2, hct, List.cons_append,
              skipWs_cons_not hcw]
          have harr := ihQ x xs2 [] (d + 1) (2 * d)
            ('\n' :: nSpaces (2 * (d + 1))) rest hw2 hje2
          rw [List.reverse_nil, List.nil_append] at harr
          simp only [List.cons_append] at harr
          simp [hsk2, hcne, harr, show isDigitC '[' = false from by decide]
      | obj kvs =>
        cases kvs with
        | nil =>
          rw [show serializeAt d (Json.obj []) = '\x7b' :: ('\x7d' :: [])
            from by simp [serializeAt, strL_braces_eq]]
          rw [show ('\x7b' :: ('\x7d' :: [])) ++ rest
            = '\x7b' :: ('\x7d' :: rest) from by simp]
          simp only [parseValue]
          rw [skipWs_ws_append hw, skipWs_cons_not (by decide)]
          simp [skipWs_cons_not (show isJWs '\x7d' = false by decide),
            show isDigitC '\x7b' = false from by decide]
        | cons kv kvs2 =>
          obtain ⟨k, v⟩ := kv
          have hw2 : ∀ c ∈ '\n' :: nSpaces (2 * (d + 1)), isJWs c = true := by
            intro c hc
            rcases List.mem_cons.mp hc with rfl | hc2
            · decide
            · exact nSpaces_all_ws c hc2
          have hje2 : jneedMembers ((k, v) :: kvs2) ≤ f := by
            simp only [jneed] at hje
            omega
          rw [show serializeAt d (Json.obj ((k, v) :: kvs2)) = '\x7b' :: ('\n' ::
            (nSpaces (2 * (d + 1)) ++ (serializeKV (d + 1) (k, v)
              ++ (serializeKVTail (d + 1) kvs2
                ++ '\n' :: (nSpaces (2 * d) ++ ['\x7d'])))))
            from by simp [serializeAt]]
          rw [show ('\x7b' :: ('\n' :: (nSpaces (2 * (d + 1))
              ++ (serializeKV (d + 1) (k, v) ++ (serializeKVTail (d + 1) kvs2
                ++ '\n' :: (nSpaces (2 * d) ++ ['\x7d'])))))) ++ rest
            = '\x7b' :: ('\n' :: (nSpaces (2 * (d + 1))
              ++ (serializeKV (d + 1) (k, v) ++ (serializeKVTail (d + 1) kvs2
                ++ '\n' :: (nSpaces (2 * d) ++ '\x7d' :: rest)))))
            from by simp]
          simp only [parseValue]
          rw [skipWs_ws_append hw, skipWs_cons_not (by decide)]
          have hsk2 : skipWs ('\n' :: (nSpaces (2 * (d + 1))
              ++ (serializeKV (d + 1) (k, v) ++ (serializeKVTail (d + 1) kvs2
                ++ '\n' :: (nSpaces (2 * d) ++ '\x7d' :: rest)))))
              = '"' :: ((escBody k ++ '"' :: (':' :: ' ' :: serializeAt (d + 1) v))
                ++ (serializeKVTail (d + 1) kvs2
                  ++ '\n' :: (nSpaces (2 * d) ++ '\x7d' :: rest))) := by
            rw [show ('\n' :: (nSpaces (2 * (d + 1))
                ++ (serializeKV (d + 1) (k, v) ++ (serializeKVTail (d + 1) kvs2
                  ++ '\n' :: (nSpaces (2 * d) ++ '\x7d' :: rest)))))
              = ('\n' :: nSpaces (2 * (d + 1)))
                ++ (serializeKV (d + 1) (k, v) ++ (serializeKVTail (d + 1) kvs2
                  ++ '\n' :: (nSpaces (2 * d) ++ '\x7d' :: rest))) from rfl]
            rw [skipWs_ws_append hw2]
            rw [show serializeKV (d + 1) (k, v)
              = '"' :: (escBody k ++ '"' :: (':' :: ' ' :: serializeAt (d + 1) v))
              from by simp [serializeKV, escStr]]
            rw [List.cons_append, skipWs_cons_not (by decide)]
          have hobj := ihR k v kvs2 [] (d + 1) (2 * d)
            ('\n' :: nSpaces (2 * (d + 1))) rest hw2 hje2
          rw [List.reverse_nil, List.nil_append] at hobj
          simp only [List.cons_append] at hobj
          simp [hsk2, hobj, show isDigitC '\x7b' = false from by decide]
    · intro x xs acc d m w rest hw hje
      have hjx : jneed x ≤ f := by
        simp only [jneedElems] at hje
        omega
      have hwm : ∀ c ∈ '\n' :: nSpaces m, isJWs c = true := by
        intro c hc
        rcases List.mem_cons.mp hc with rfl | hc2
        · decide
        · exact nSpaces_all_ws c hc2
      have hnd2 : ndStart (serializeTail d xs
          ++ '\n' :: (nSpaces m ++ ']' :: rest)) = true := by
        cases xs with
        | nil =>
          simp only [serializeTail, List.nil_append, ndStart]
          decide
        | cons x2 xs2 =>
          simp only [serializeTail, List.cons_append, ndStart]
          decide
      simp only [parseElems]
      rw [ihP x d w (serializeTail d xs ++ '\n' :: (nSpaces m ++ ']' :: rest))
        hw hnd2 hjx]
      cases xs with
      | nil =>
        have hsk3 : skipWs (serializeTail d ([] : List Json)
            ++ '\n' :: (nSpaces m ++ ']' :: rest)) = ']' :: rest := by
          rw [show serializeTail d ([] : List Json)
              ++ '\n' :: (nSpaces m ++ ']' :: rest)
            = ('\n' :: nSpaces m) ++ (']' :: rest) from by simp [serializeTail]]
          rw [skipWs_ws_append hwm, skipWs_cons_not (by decide)]
        simp [hsk3]
      | cons x2 xs2 =>
        have hwm2 : ∀ c ∈ '\n' :: nSpaces (2 * d), isJWs c = true := by
          intro c hc
          rcases List.mem_cons.mp hc with rfl | hc2
          · decide
          · exact nSpaces_all_ws c hc2
        have hje3 : jneedElems (x2 :: xs2) ≤ f := by
          simp only [jneedElems] at hje ⊢
          omega
        have hsk3 : skipWs (serializeTail d (x2 :: xs2)
            ++ '\n' :: (nSpaces m ++ ']' :: rest))
            = ',' :: ('\n' :: (nSpaces (2 * d) ++ (serializeAt d x2
              ++ (serializeTail d xs2 ++ '\n' :: (nSpaces m ++ ']' :: rest))))) := by
          rw [show serializeTail d (x2 :: xs2)
              ++ '\n' :: (nSpaces m ++ ']' :: rest)
            = ',' :: ('\n' :: (nSpaces (2 * d) ++ (serializeAt d x2
              ++ (serializeTail d xs2 ++ '\n' :: (nSpaces m ++ ']' :: rest)))))
            from by simp [serializeTail]]
          rw [skipWs_cons_not (by decide)]
        have harr := ihQ x2 xs2 (x :: acc) d m ('\n' :: nSpaces (2 * d)) rest
          hwm2 hje3
        simp only [List.cons_append] at harr
        simp [hsk3, harr, List.append_assoc]
    · intro k v kvs acc d m w rest hw hje
      have hjv : jneed v ≤ f := by
        simp only [jneedMembers] at hje
        omega
      simp only [parseMembers]
      have hsk1 : skipWs (w ++ (serializeKV d (k, v) ++ (serializeKVTail d kvs
          ++ '\n' :: (nSpaces m ++ '\x7d' :: rest))))
          = '"' :: ((escBody k ++ '"' :: (':' :: ' ' :: serializeAt d v))
            ++ (serializeKVTail d kvs
              ++ '\n' :: (nSpaces m ++ '\x7d' :: rest))) := by
        rw [skipWs_ws_append hw]
        rw [show serializeKV d (k, v)
          = '"' :: (escBody k ++ '"' :: (':' :: ' ' :: serializeAt d v))
          from by simp [serializeKV, escStr]]
        rw [List.cons_append, skipWs_cons_not (by decide)]
      rw [hsk1]
      simp only [List.head?_cons, List.tail_cons]
      rw [if_pos trivial]
      rw [show (escBody k ++ '"' :: (':' :: ' ' :: serializeAt d v))
          ++ (serializeKVTail d kvs ++ '\n' :: (nSpaces m ++ '\x7d' :: rest))
        = escBody k ++ '"' :: (':' :: (' ' :: (serializeAt d v
          ++ (serializeKVTail d kvs ++ '\n' :: (nSpaces m ++ '\x7d' :: rest)))))
        from by simp [List.append_assoc]]
      have hlen : k.length + 1 ≤ (escBody k ++ '"' :: (':' :: (' '
          :: (serializeAt d v ++ (serializeKVTail d kvs
            ++ '\n' :: (nSpaces m ++ '\x7d' :: rest)))))).length + 1 := by
        have := escBody_len_ge k
        rw [List.length_append]
        omega
      have hps := parseStrBody_round k []
        (':' :: (' ' :: (serializeAt d v ++ (serializeKVTail d kvs
          ++ '\n' :: (nSpaces m ++ '\x7d' :: rest)))))
        ((escBody k ++ '"' :: (':' :: (' ' :: (serializeAt d v
          ++ (serializeKVTail d kvs
            ++ '\n' :: (nSpaces m ++ '\x7d' :: rest)))))).length + 1) hlen
      rw [List.reverse_nil, List.nil_append] at hps
      rw [hps]
      have hskc : skipWs (':' :: (' ' :: (serializeAt d v
          ++ (serializeKVTail d kvs ++ '\n' :: (nSpaces m ++ '\x7d' :: rest)))))
          = ':' :: (' ' :: (serializeAt d v ++ (serializeKVTail d kvs
            ++ '\n' :: (nSpaces m ++ '\x7d' :: rest)))) :=
        skipWs_cons_not (by decide) _
      have hnd3 : ndStart (serializeKVTail d kvs
          ++ '\n' :: (nSpaces m ++ '\x7d' :: rest)) = true := by
        cases kvs with
        | nil =>
          simp only [serializeKVTail, List.nil_append, ndStart]
          decide
        | cons kv2 kvs2 =>
          simp only [serializeKVTail, List.cons_append, ndStart]
          decide
      have hpv := ihP v d [' '] (serializeKVTail d kvs
        ++ '\n' :: (nSpaces m ++ '\x7d' :: rest))
        (by intro c hc; rw [List.mem_singleton] at hc; rw [hc]; decide)
        hnd3 hjv
      rw [List.singleton_append] at hpv
      dsimp only
      rw [hskc]
      simp only [List.head?_cons, List.tail_cons]
      rw [if_pos trivial, hpv]
      have hwm : ∀ c ∈ '\n' :: nSpaces m, isJWs c = true := by
        intro c hc
        rcases List.mem_cons.mp hc with rfl | hc2
        · decide
        · exact nSpaces_all_ws c hc2
      cases kvs with
      | nil =>
        have hsk4 : skipWs (serializeKVTail d ([] : List (List Char × Json))
            ++ '\n' :: (nSpaces m ++ '\x7d' :: rest)) = '\x7d' :: rest := by
          rw [show serializeKVTail d ([] : List (List Char × Json))
              ++ '\n' :: (nSpaces m ++ '\x7d' :: rest)
            = ('\n' :: nSpaces m) ++ ('\x7d' :: rest)
            from by simp [serializeKVTail]]
          rw [skipWs_ws_append hwm, skipWs_cons_not (by decide)]
        simp [hsk4]
      | cons kv2 kvs2 =>
        obtain ⟨k2, v2⟩ := kv2
        have hwm2 : ∀ c ∈ '\n' :: nSpaces (2 * d), isJWs c = true := by
          intro c hc
          rcases List.mem_cons.mp hc with rfl | hc2
          · decide
          · exact nSpaces_all_ws c hc2
        have hje3 : jneedMembers ((k2, v2) :: kvs2) ≤ f := by
          simp only [jneedMembers] at hje ⊢
          omega
        have hsk4 : skipWs (serializeKVTail d ((k2, v2) :: kvs2)
            ++ '\n' :: (nSpaces m ++ '\x7d' :: rest))
            = ',' :: ('\n' :: (nSpaces (2 * d) ++ (serializeKV d (k2, v2)
              ++ (serializeKVTail d kvs2
                ++ '\n' :: (nSpaces m ++ '\x7d' :: rest))))) := by
          rw [show serializeKVTail d ((k2, v2) :: kvs2)
              ++ '\n' :: (nSpaces m ++ '\x7d' :: rest)
            = ',' :: ('\n' :: (nSpaces (2 * d) ++ (serializeKV d (k2, v2)
              ++ (serializeKVTail d kvs2
                ++ '\n' :: (nSpaces m ++ '\x7d' :: rest)))))
            from by simp [serializeKVTail]]
          rw [skipWs_cons_not (by decide)]
        have hobj := ihR k2 v2 kvs2 ((k, v) :: acc) d m
          ('\n' :: nSpaces (2 * d)) rest hwm2 hje3
        simp only [List.cons_append] at hobj
        simp [hsk4, hobj, List.append_assoc]

mutual
theorem jneed_le_len : ∀ (v : Json) (d : Nat),
    jneed v ≤ (serializeAt d v).length
  | Json.null, d => by simp [jneed, serializeAt, strL_null_eq]
  | Json.bool true, d => by simp [jneed, serializeAt, strL_true_eq]
  | Json.bool false, d => by simp [jneed, serializeAt, strL_false_eq]
  | Json.num i, d => by
    simp only [jneed, serializeAt]
    unfold intToChars
    split_ifs with hi
    · simp
    · have hne := (natToChars_ok i.toNat).1
      have := List.length_pos.mpr hne
      omega
  | Json.str s, d => by simp [jneed, serializeAt, escStr]
  | Json.arr [], d => by simp [jneed, serializeAt, strL_brackets_eq]
  | Json.arr (x :: xs), d => by
    have h1 := jneed_le_len x (d + 1)
    have h2 := jneedElems_le_len xs (d + 1)
    simp only [jneed, jneedElems, serializeAt]
    simp only [List.length_cons, List.length_append]
    omega
  | Json.obj [], d => by simp [jneed, serializeAt, strL_braces_eq]
  | Json.obj ((k, v) :: kvs), d => by
    have h1 := jneed_le_len v (d + 1)
    have h2 := jneedMembers_le_len kvs (d + 1)
    simp only [jneed, jneedMembers, serializeAt, serializeKV]
    simp only [List.length_cons, List.length_append]
    omega

theorem jneedElems_le_len : ∀ (xs : List Json) (d : Nat),
    jneedElems xs ≤ (serializeTail d xs).length
  | [], d => by simp [jneedElems, serializeTail]
  | x :: xs, d => by
    have h1 := jneed_le_len x d
    have h2 := jneedElems_le_len xs d
    simp only [jneedElems, serializeTail]
    simp only [List.length_cons, List.length_append]
    omega

theorem jneedMembers_le_len : ∀ (kvs : List (List Char × Json)) (d : Nat),
    jneedMembers kvs ≤ (serializeKVTail d kvs).length
  | [], d => by simp [jneedMembers, serializeKVTail]
  | (k, v) :: kvs, d => by
    have h1 := jneed_le_len v d
    have h2 := jneedMembers_le_len kvs d
    simp only [jneedMembers, serializeKVTail, serializeKV]
    simp only [List.length_cons, List.length_append]
    omega
end


/-- `json.loads(json.dumps(v, indent=2))` recovers `v` exactly. -/
theorem loads_dumps (v : Json) : loads (dumpsDoc v) = some v := by
  unfold loads dumpsDoc
  have hb := (round_main ((serializeAt 0 v).length + 1)).1 v 0 [] []
    (by intro c hc; simp at hc) (by simp [ndStart])
    (le_trans (jneed_le_len v 0) (by omega))
  rw [List.nil_append, List.append_nil] at hb
  rw [hb]
  simp [skipWs]

/-- C8.  For every payload that is a mapping with a `"boxes"` key holding a
sequence, `import_json` replaces the persisted document with
`json.dumps(payload, indent=2)`, an immediately following `export_json`
returns that content verbatim, and parsing it with `json.loads` yields a
JSON value equal to the imported payload — the round-trip law, modulo the
whitespace-insensitive re-serialization performed by `save_data`. -/
theorem import_export_round_trip :
    ∀ payload : Json, ∀ bs : List Json,
      jsonLookup (strL "boxes") payload = some (Json.arr bs) →
      import_json payload = Except.ok (dumpsDoc payload)
      ∧ export_json (some (dumpsDoc payload)) = dumpsDoc payload
      ∧ loads (dumpsDoc payload) = some payload := by
  intro payload bs h
  refine ⟨?_, rfl, loads_dumps payload⟩
  unfold import_json
  rw [h]

/-- C8 witness at a concrete payload. -/
theorem import_export_round_trip_witness :
    jsonLookup (strL "boxes") (Json.obj [(strL "boxes", Json.arr [])])
      = some (Json.arr []) ∧
    import_json (Json.obj [(strL "boxes", Json.arr [])])
      = Except.ok (dumpsDoc (Json.obj [(strL "boxes", Json.arr [])])) ∧
    loads (dumpsDoc (Json.obj [(strL "boxes", Json.arr [])]))
      = some (Json.obj [(strL "boxes", Json.arr [])]) :=
  ⟨rfl,
   (import_export_round_trip (Json.obj [(strL "boxes", Json.arr [])]) []
      rfl).1,
   (import_export_round_trip (Json.obj [(strL "boxes", Json.arr [])]) []
      rfl).2.2⟩
